import Mathlib

/-!
Verification of the documentation-freshness auditor.

The JavaScript sources live in `.github/scripts/review-docs.js` (the
rotation-and-staleness engine) and `.github/scripts/check-review-date.js`
(the change-proposal-time verifier).  Document contents are modelled as
`List Char` (the character sequence of the file), so that the regular
expressions of the source can be modelled exactly as line-based matchers:
the only multiline-anchored patterns in the source,
`/^reviewed at \d\x7b4\x7d-\d\x7b2\x7d-\d\x7b2\x7d/m`, match precisely at
the start of a '\n'-separated line and never across a newline.

JavaScript `Date` behaviour is modelled for a UTC runtime, following the
design note of the specification ("treat all dates as timezone-less
calendar dates (midnight UTC)"): parsing an ISO `yyyy-mm-dd` string
succeeds exactly when the string denotes a real proleptic-Gregorian
calendar date, and the component getters return the parsed components.
-/

/-- Document contents: the character sequence of a file. -/
abbrev Str := List Char

/-- Whitespace as used by JavaScript `String.prototype.trim` (the ASCII
core; the sources only ever contain ASCII whitespace). -/
def isWsChar (c : Char) : Bool :=
  c == ' ' || c == '\t' || c == '\n' || c == '\r'

/-- Model of JavaScript `trim`: strip whitespace from both ends. -/
def trimChars (s : Str) : Str :=
  ((s.dropWhile isWsChar).reverse.dropWhile isWsChar).reverse

/-- Split a character sequence at every occurrence of `sep`; models
JavaScript `String.prototype.split` with a single-character separator
(also used to enumerate the '\n'-separated lines a multiline-anchored
regular expression can match at). -/
def splitOnChar (sep : Char) : Str → List Str
  | [] => [[]]
  | c :: rest =>
    match splitOnChar sep rest with
    | [] => [[c]]
    | l :: ls => if c == sep then [] :: l :: ls else (c :: l) :: ls

/-- Join pieces back with `sep` between them; inverse of `splitOnChar`. -/
def joinChar (sep : Char) : List Str → Str
  | [] => []
  | [l] => l
  | l :: ls => l ++ sep :: joinChar sep ls

/-- Strip an expected literal prefix, returning the remainder. -/
def stripPrefixChars : Str → Str → Option Str
  | [], s => some s
  | _ :: _, [] => none
  | p :: ps, c :: cs => if c == p then stripPrefixChars ps cs else none

/-- Decimal digit character for a value below ten. -/
def dChar (k : Nat) : Char := Char.ofNat (48 + k)

/-- Fuel-driven decimal printing of a positive number, most significant
digit first (the fuel is an upper bound on the number, which makes the
recursion structural and kernel-reducible). -/
def natCharsAux : Nat → Nat → List Char
  | 0, _ => []
  | fuel + 1, n => if n = 0 then [] else natCharsAux fuel (n / 10) ++ [dChar (n % 10)]

/-- Model of JavaScript `String(n)` for a natural number: standard decimal
notation with no padding. -/
def natChars (n : Nat) : List Char :=
  if n = 0 then ['0'] else natCharsAux n n

/-- Numeric value of a decimal digit string, most significant digit first;
models JavaScript `Number` on the digit substrings cut out of a matched
`yyyy-mm-dd` literal. -/
def charsToNat (l : Str) : Nat :=
  l.foldl (fun a c => a * 10 + (c.toNat - 48)) 0

/-- Model of `String(n).padStart(2, '0')`: pad the decimal notation to at
least two characters. -/
def pad2 (n : Nat) : List Char :=
  let s := natChars n
  if s.length < 2 then '0' :: s else s

/-- A calendar-date value: what a JavaScript `Date` object holds once the
sources have validated it (year / 1-based month / day-of-month). -/
structure CDate where
  year : Nat
  month : Nat
  day : Nat
  deriving DecidableEq, Repr

/-- Proleptic-Gregorian leap-year rule (the rule JavaScript `Date` uses). -/
def leapYear (y : Nat) : Bool :=
  y % 4 == 0 && (!(y % 100 == 0) || y % 400 == 0)

/-- Number of days in a month of a given year. -/
def daysInMonth (y m : Nat) : Nat :=
  if m == 2 then (if leapYear y then 29 else 28)
  else if m == 4 || m == 6 || m == 9 || m == 11 then 30
  else 31

/-- Whether `⟨y, m, d⟩` is a real calendar date. -/
def validTriple (y m d : Nat) : Bool :=
  decide (1 ≤ m ∧ m ≤ 12 ∧ 1 ≤ d ∧ d ≤ daysInMonth y m)

/-- Model of `formatDate` (`review-docs.js` lines 13-18): year unpadded,
month and day padded to two digits, joined by dashes. -/
def formatDate (d : CDate) : Str :=
  natChars d.year ++ '-' :: pad2 d.month ++ '-' :: pad2 d.day

/-- The literal prefix of the marker regular expression
`/^reviewed at \d\x7b4\x7d-\d\x7b2\x7d-\d\x7b2\x7d/m`. -/
def reviewMarker : Str := "reviewed at ".data

/-- Whether the first ten characters of a string have the shape
`\d\x7b4\x7d-\d\x7b2\x7d-\d\x7b2\x7d` (exactly ten characters present). -/
def dateShape (s : Str) : Bool :=
  match s with
  | [y1, y2, y3, y4, h1, m1, m2, h2, d1, d2] =>
    y1.isDigit && y2.isDigit && y3.isDigit && y4.isDigit && h1 == '-' &&
    m1.isDigit && m2.isDigit && h2 == '-' && d1.isDigit && d2.isDigit
  | _ => false

/-- Match the marker regular expression against one line: the line must
start with `reviewed at ` followed by the ten-character date shape; the
captured date literal is returned.  (The regular expression does not
anchor the end, so trailing characters are allowed.) -/
def matchMarker (line : Str) : Option Str :=
  match stripPrefixChars reviewMarker line with
  | none => none
  | some rest =>
    if dateShape (rest.take 10) then some (rest.take 10) else none

/-- Model of `new Date(dateString)` on a captured `yyyy-mm-dd` literal
followed by the component round-trip validation of `getReviewDate`
(`review-docs.js` lines 25-36), for a UTC runtime: the result is the
parsed calendar date when the literal denotes a real calendar date, and
`none` otherwise (V8 rejects out-of-range ISO components as Invalid Date,
and even under a rolling-overflow reading the getter comparison of lines
31-36 would reject them). -/
def parseValidDate (ds : Str) : Option CDate :=
  match ds with
  | [y1, y2, y3, y4, _, m1, m2, _, d1, d2] =>
    if validTriple (charsToNat [y1, y2, y3, y4]) (charsToNat [m1, m2]) (charsToNat [d1, d2])
    then some ⟨charsToNat [y1, y2, y3, y4], charsToNat [m1, m2], charsToNat [d1, d2]⟩
    else none
  | _ => none

/-- Model of `getReviewDate` (`review-docs.js` lines 21-40): find the
first line matching the marker regular expression; if its captured date
literal validates, return the date, otherwise `null`. -/
def getReviewDate (content : Str) : Option CDate :=
  match (splitOnChar '\n' content).findSome? matchMarker with
  | some ds => parseValidDate ds
  | none => none

/-- Replace, in the first line that matches the marker regular expression,
exactly the 22 matched characters (`reviewed at ` plus the ten-character
date) by the replacement line; models `String.prototype.replace` with the
marker regular expression. -/
def replaceFirstMarker (rl : Str) : List Str → List Str
  | [] => []
  | l :: ls =>
    if (matchMarker l).isSome then (rl ++ l.drop 22) :: ls
    else l :: replaceFirstMarker rl ls

/-- Model of `updateReviewDate` (`review-docs.js` lines 96-110): if some
line matches the marker regular expression, replace the matched part of
the first such line; otherwise prepend the new marker line and a blank
line to the content. -/
def updateReviewDate (content : Str) (newDate : CDate) : Str :=
  let reviewLine := reviewMarker ++ formatDate newDate
  let lines := splitOnChar '\n' content
  if lines.any (fun l => (matchMarker l).isSome) then
    joinChar '\n' (replaceFirstMarker reviewLine lines)
  else
    reviewLine ++ '\n' :: '\n' :: content

/-- The freshness window of `review-docs.js` line 10, in milliseconds. -/
def ONE_MONTH_MS : Int := 30 * 24 * 60 * 60 * 1000

/-- Epoch milliseconds of midnight UTC of a calendar date (the value of
`new Date("yyyy-mm-dd")` in JavaScript), via the standard civil-days
computation for the proleptic Gregorian calendar. -/
def dateToUTCms (dt : CDate) : Int :=
  let y : Int := if dt.month ≤ 2 then (dt.year : Int) - 1 else (dt.year : Int)
  let era : Int := Int.fdiv y 400
  let yoe : Int := y - era * 400
  let mp : Int := ((dt.month : Int) + 9) % 12
  let doy : Int := (153 * mp + 2) / 5 + (dt.day : Int) - 1
  let doe : Int := yoe * 365 + yoe / 4 - yoe / 100 + doy
  (era * 146097 + doe - 719468) * 86400000

/-- Model of `needsReview` (`review-docs.js` lines 43-50), with the
current instant (`new Date()` of line 47) made an explicit millisecond
parameter. -/
def needsReview (reviewDate : Option CDate) (nowMs : Int) : Bool :=
  match reviewDate with
  | none => true
  | some d => decide (ONE_MONTH_MS < nowMs - dateToUTCms d)

/-- Model of `selectNextFile` (`review-docs.js` lines 87-93).  JavaScript
`%` truncates toward zero, hence `Int.tmod`; an out-of-range index makes
the `file` component `undefined`, modelled by the inner `Option`. -/
def selectNextFile (files : List String) (lastIndex : Int) : Option (Option String × Int) :=
  if files.length = 0 then none
  else
    let nextIndex := Int.tmod (lastIndex + 1) files.length
    some ((if 0 ≤ nextIndex then files.get? nextIndex.toNat else none), nextIndex)

/-- Model of `selectRandomAssignee` (`review-docs.js` lines 113-120): the
configured pool split on commas, entries whose trim is empty filtered
out; `none` models the thrown `No team members available` error.  The
`Math.random()` index choice is modelled by the explicit `pick` parameter
reduced modulo the pool size. -/
def selectRandomAssignee (teamMembers : Str) (pick : Nat) : Option Str :=
  let members := (splitOnChar ',' teamMembers).filter (fun m => !(trimChars m).isEmpty)
  if members.isEmpty then none
  else some (trimChars (members.getD (pick % members.length) []))

/-- Result of `parseFrontMatter` (`check-review-date.js` lines 22-44):
the parsed key/value pairs in source order (later assignments to the same
key shadow earlier ones, as for a JavaScript object) and the presence
flag. -/
structure FMResult where
  frontMatter : List (String × String)
  hasFrontMatter : Bool
  deriving DecidableEq, Repr

/-- Find the first occurrence of the closing-delimiter sequence
`"\n---"`, returning the text before it and the remainder after it; this
is exactly what the lazy group of the front-matter regular expression
(`^---` then newline, then a lazy any-character group, then newline and
`---`) commits to. -/
def findDelim : Str → Option (Str × Str)
  | [] => none
  | c :: rest =>
    if ("\n---".data).isPrefixOf (c :: rest) then some ([], (c :: rest).drop 4)
    else
      match findDelim rest with
      | some (b, a) => some (c :: b, a)
      | none => none

/-- One `key: value` line of the front-matter text (`check-review-date.js`
lines 31-38): the first colon must sit at a positive index; key and value
are trimmed. -/
def parseLine (line : Str) : Option (String × String) :=
  match line.findIdx? (fun c => c == ':') with
  | some i =>
    if 0 < i then some (String.mk (trimChars (line.take i)), String.mk (trimChars (line.drop (i + 1))))
    else none
  | none => none

/-- All recognized `key: value` pairs of the front-matter text, in source
order. -/
def parsePairs (lines : List Str) : List (String × String) :=
  lines.filterMap parseLine

/-- Model of `parseFrontMatter` (`check-review-date.js` lines 22-44):
the content must start with the opening delimiter line, and the lazy
group runs to the first occurrence of the closing-delimiter sequence. -/
def parseFrontMatter (content : Str) : FMResult :=
  match stripPrefixChars ("---\n".data) content with
  | none => { frontMatter := [], hasFrontMatter := false }
  | some rest =>
    match findDelim rest with
    | none => { frontMatter := [], hasFrontMatter := false }
    | some (inner, _) =>
      { frontMatter := parsePairs (splitOnChar '\n' inner), hasFrontMatter := true }

/-- JavaScript object property lookup on the parsed pair list: the last
assignment to the key wins; `none` models `undefined`. -/
def jsGet (m : List (String × String)) (k : String) : Option String :=
  (m.reverse.find? (fun p => p.1 == k)).map Prod.snd

/-- Reasons the verifier can record for a modified file, named as in the
specification. -/
inductive Problem
  | MissingFrontMatter
  | MissingReviewedAt
  | StaleOrMismatchedDate
  deriving DecidableEq, Repr

/-- Classification of one existing file by the verifier main loop
(`check-review-date.js` lines 100-121).  The `reviewed_at` lookup is
falsy both when the key is absent and when its trimmed value is the empty
string (`!frontMatter.reviewed_at`); otherwise the value is compared to
`today` by literal string equality. -/
def classifyFile (content : Str) (today : String) : Option Problem :=
  let fm := parseFrontMatter content
  if fm.hasFrontMatter = false then some Problem.MissingFrontMatter
  else
    match jsGet fm.frontMatter "reviewed_at" with
    | none => some Problem.MissingReviewedAt
    | some v =>
      if v = "" then some Problem.MissingReviewedAt
      else if v = today then none
      else some Problem.StaleOrMismatchedDate

/-- Model of the verifier main loop (`check-review-date.js` lines
92-122): missing files are skipped, every other file contributes its
classification; the file system is an explicit partial map from path to
content. -/
def checkAll (paths : List String) (fsys : String → Option Str) (today : String) :
    List (String × Problem) :=
  paths.filterMap (fun p =>
    match fsys p with
    | none => none
    | some c => (classifyFile c today).map (fun pr => (p, pr)))

/-- Exit code of the verifier (`check-review-date.js` lines 126-132):
nonzero exactly when some problem was recorded. -/
def checkExitCode (paths : List String) (fsys : String → Option Str) (today : String) : Nat :=
  if (checkAll paths fsys today).isEmpty then 0 else 1

/-- How one invocation of the orchestrator ends: normally, thrown out of
the assignee selection (`No team members available` / unset
`TEAM_MEMBERS`), or thrown out of reading a file at an out-of-range
index. -/
inductive RunError
  | ok
  | emptyPool
  | badRead
  deriving DecidableEq, Repr

/-- Observable effects of one orchestrator invocation: the
`setOutput` calls in order, the document writes (name and new content)
in order, the cursor values persisted by `saveState` in order, and how
the run ended. -/
structure RunResult where
  outputs : List (String × String)
  writes : List (String × Str)
  saved : List Int
  err : RunError
  deriving DecidableEq, Repr

/-- The environment one invocation of the orchestrator runs in: the
sorted directory listing with each file's content, the duplicate-guard
query, the current instant, today's date, the configured assignee pool
and the random choice. -/
structure Env where
  files : List (String × Str)
  hasPR : String → Bool
  nowMs : Int
  today : CDate
  teamMembers : Str
  pick : Nat

/-- Model of the scan loop of `main` (`review-docs.js` lines 172-244).
The fuel argument is `files.length - checkedCount`, so fuel `0` is the
exhausted case after the loop (lines 239-244).  In the body: select the
next candidate, read it (an out-of-range index throws, ending the run),
evaluate staleness; a fresh document or one with an open duplicate
proposal only advances the cursor in memory and continues; a stale one is
rewritten on disk first, then the assignee pool is consulted (an empty
pool throws, after the write and before any `saveState`), then the
outputs are emitted and the cursor is persisted, ending the run. -/
def scanLoop (env : Env) : Nat → Int → RunResult
  | 0, li =>
    { outputs := [("needs_review", "false")], writes := [], saved := [li], err := RunError.ok }
  | k + 1, li =>
    match selectNextFile (env.files.map Prod.fst) li with
    | none =>
      { outputs := [("needs_review", "false")], writes := [], saved := [], err := RunError.ok }
    | some (_, index) =>
      match (if 0 ≤ index then env.files[index.toNat]? else none) with
      | none => { outputs := [], writes := [], saved := [], err := RunError.badRead }
      | some (name, content) =>
        if needsReview (getReviewDate content) env.nowMs then
          if env.hasPR ("docs/" ++ name) then
            scanLoop env k index
          else
            let updated := updateReviewDate content env.today
            if env.teamMembers = [] then
              { outputs := [], writes := [(name, updated)], saved := [], err := RunError.emptyPool }
            else
              match selectRandomAssignee env.teamMembers env.pick with
              | none =>
                { outputs := [], writes := [(name, updated)], saved := [], err := RunError.emptyPool }
              | some a =>
                { outputs := [("needs_review", "true"), ("file_path", "docs/" ++ name),
                              ("assignee", String.mk a)],
                  writes := [(name, updated)], saved := [index], err := RunError.ok }
        else
          scanLoop env k index

/-- Model of `main` (`review-docs.js` lines 151-250): the empty-listing
early return, then the scan loop with its iteration bound. -/
def mainRun (env : Env) (initLastIndex : Int) : RunResult :=
  if env.files.isEmpty then
    { outputs := [("needs_review", "false")], writes := [], saved := [], err := RunError.ok }
  else scanLoop env env.files.length initLastIndex

/-- A concrete one-document environment with a configured assignee pool,
used to exercise the orchestrator: the single document has no metadata,
so it is stale. -/
def demoEnv : Env :=
  { files := [("a.md", [])], hasPR := fun _ => false, nowMs := 0,
    today := ⟨2025, 10, 11⟩, teamMembers := "alice".data, pick := 0 }

/-- The same environment with an unset assignee pool (`TEAM_MEMBERS`
empty), used to exercise the empty-pool abort. -/
def demoEnvNoPool : Env :=
  { files := [("a.md", [])], hasPR := fun _ => false, nowMs := 0,
    today := ⟨2025, 10, 11⟩, teamMembers := [], pick := 0 }

/-- A concrete one-file file system for exercising the verifier: the
modified document carries front matter reviewed on 2025-05-30. -/
def demoFsys (p : String) : Option Str :=
  if p = "docs/x.md" then some ("---\nreviewed_at: 2025-05-30\n---\n\nbody".data) else none

/-! Properties of splitting and joining on a separator character. -/

theorem splitOnChar_ne_nil (sep : Char) (s : Str) : splitOnChar sep s ≠ [] := by
  induction s with
  | nil => simp [splitOnChar]
  | cons c rest ih =>
    simp only [splitOnChar]
    cases h : splitOnChar sep rest with
    | nil => simp
    | cons l ls => by_cases hc : c == sep <;> simp [hc]

theorem joinChar_splitOnChar (sep : Char) (s : Str) :
    joinChar sep (splitOnChar sep s) = s := by
  induction s with
  | nil => rfl
  | cons c rest ih =>
    simp only [splitOnChar]
    cases h : splitOnChar sep rest with
    | nil => exact absurd h (splitOnChar_ne_nil sep rest)
    | cons l ls =>
      rw [h] at ih
      by_cases hc : c == sep
      · simp only [if_pos hc, joinChar, ih]
        have : c = sep := by simpa using hc
        simp [this]
      · simp only [if_neg hc]
        cases ls with
        | nil => simpa [joinChar] using congrArg (c :: ·) ih
        | cons l2 ls2 => simpa [joinChar] using congrArg (c :: ·) ih

theorem splitOnChar_no_sep (sep : Char) (s : Str) :
    ∀ l ∈ splitOnChar sep s, sep ∉ l := by
  induction s with
  | nil => simp [splitOnChar]
  | cons c rest ih =>
    simp only [splitOnChar]
    cases h : splitOnChar sep rest with
    | nil => exact absurd h (splitOnChar_ne_nil sep rest)
    | cons l ls =>
      rw [h] at ih
      by_cases hc : c == sep
      · simp only [if_pos hc]
        intro x hx
        rcases List.mem_cons.1 hx with rfl | hx
        · simp
        · exact ih x hx
      · simp only [if_neg hc]
        intro x hx
        rcases List.mem_cons.1 hx with rfl | hx
        · intro hmem
          rcases List.mem_cons.1 hmem with rfl | hmem
          · exact hc (by simp)
          · exact ih l (List.mem_cons_self l ls) hmem
        · exact ih x (List.mem_cons_of_mem _ hx)

theorem splitOnChar_of_not_mem (sep : Char) (s : Str) (h : sep ∉ s) :
    splitOnChar sep s = [s] := by
  induction s with
  | nil => rfl
  | cons c rest ih =>
    have hc : ¬ c == sep := by
      simp only [List.mem_cons, not_or] at h
      simpa using fun he => h.1 he.symm
    have hrest : sep ∉ rest := by
      simp only [List.mem_cons, not_or] at h
      exact h.2
    simp only [splitOnChar, ih hrest, if_neg hc]

theorem splitOnChar_append (sep : Char) (a b : Str) (h : sep ∉ a) :
    splitOnChar sep (a ++ sep :: b) = a :: splitOnChar sep b := by
  induction a with
  | nil =>
    simp only [List.nil_append, splitOnChar]
    cases hb : splitOnChar sep b with
    | nil => exact absurd hb (splitOnChar_ne_nil sep b)
    | cons l ls => simp
  | cons c a' ih =>
    have hc : ¬ c == sep := by
      simp only [List.mem_cons, not_or] at h
      simpa using fun he => h.1 he.symm
    have ha' : sep ∉ a' := by
      simp only [List.mem_cons, not_or] at h
      exact h.2
    show splitOnChar sep (c :: (a' ++ sep :: b)) = _
    simp only [splitOnChar]
    rw [ih ha']
    simp only [if_neg hc]

theorem splitOnChar_joinChar (sep : Char) (ls : List Str) (hne : ls ≠ [])
    (h : ∀ l ∈ ls, sep ∉ l) : splitOnChar sep (joinChar sep ls) = ls := by
  induction ls with
  | nil => exact absurd rfl hne
  | cons l t ih =>
    cases t with
    | nil => simpa [joinChar] using splitOnChar_of_not_mem sep l (h l (by simp))
    | cons l2 t2 =>
      have step : joinChar sep (l :: l2 :: t2) = l ++ sep :: joinChar sep (l2 :: t2) := rfl
      rw [step, splitOnChar_append sep l _ (h l (by simp)),
        ih (by simp) (fun x hx => h x (List.mem_cons_of_mem _ hx))]

/-! Properties of prefix stripping and the marker matcher. -/

theorem stripPrefixChars_append (p r : Str) : stripPrefixChars p (p ++ r) = some r := by
  induction p with
  | nil => rfl
  | cons c ps ih => simp [stripPrefixChars, ih]

theorem stripPrefixChars_some (p : Str) : ∀ s r, stripPrefixChars p s = some r → s = p ++ r := by
  induction p with
  | nil =>
    intro s r h
    simpa [stripPrefixChars] using h
  | cons c ps ih =>
    intro s r h
    cases s with
    | nil => simp [stripPrefixChars] at h
    | cons d ds =>
      simp only [stripPrefixChars] at h
      by_cases hd : d == c
      · rw [if_pos hd] at h
        have : d = c := by simpa using hd
        simp [this, ih ds r h]
      · rw [if_neg hd] at h
        exact absurd h (by simp)

theorem dateShape_iff (s : Str) : dateShape s = true ↔
    ∃ y1 y2 y3 y4 m1 m2 d1 d2 : Char,
      s = [y1, y2, y3, y4, '-', m1, m2, '-', d1, d2] ∧
      y1.isDigit = true ∧ y2.isDigit = true ∧ y3.isDigit = true ∧ y4.isDigit = true ∧
      m1.isDigit = true ∧ m2.isDigit = true ∧ d1.isDigit = true ∧ d2.isDigit = true := by
  constructor
  · intro h
    match s, h with
    | [y1, y2, y3, y4, h1, m1, m2, h2, d1, d2], h =>
      simp only [dateShape, Bool.and_eq_true, beq_iff_eq] at h
      obtain ⟨⟨⟨⟨⟨⟨⟨⟨⟨h1d, h2d⟩, h3d⟩, h4d⟩, hh1⟩, hm1⟩, hm2⟩, hh2⟩, hd1⟩, hd2⟩ := h
      exact ⟨y1, y2, y3, y4, m1, m2, d1, d2, by rw [hh1, hh2], h1d, h2d, h3d, h4d, hm1, hm2, hd1, hd2⟩
  · rintro ⟨y1, y2, y3, y4, m1, m2, d1, d2, rfl, hs⟩
    simp [dateShape, hs.1, hs.2.1, hs.2.2.1, hs.2.2.2.1, hs.2.2.2.2.1, hs.2.2.2.2.2.1,
      hs.2.2.2.2.2.2.1, hs.2.2.2.2.2.2.2]

theorem dateShape_length (ds : Str) (h : dateShape ds = true) : ds.length = 10 := by
  obtain ⟨y1, y2, y3, y4, m1, m2, d1, d2, rfl, _⟩ := (dateShape_iff ds).1 h
  rfl

theorem matchMarker_of_shape (ds : Str) (h : dateShape ds = true) (rest : Str) :
    matchMarker (reviewMarker ++ (ds ++ rest)) = some ds := by
  have htake : (ds ++ rest).take 10 = ds := List.take_left' (dateShape_length ds h)
  simp [matchMarker, stripPrefixChars_append, htake, h]

theorem matchMarker_some (l ds : Str) (h : matchMarker l = some ds) :
    l = reviewMarker ++ ds ++ l.drop 22 ∧ dateShape ds = true ∧ ds.length = 10 := by
  unfold matchMarker at h
  cases hs : stripPrefixChars reviewMarker l with
  | none => rw [hs] at h; exact absurd h (by simp)
  | some rest =>
    rw [hs] at h
    replace h : (if dateShape (rest.take 10) = true then some (rest.take 10)
        else (none : Option Str)) = some ds := h
    have hl : l = reviewMarker ++ rest := stripPrefixChars_some _ _ _ hs
    by_cases hcond : dateShape (rest.take 10) = true
    · rw [if_pos hcond] at h
      have hds : ds = rest.take 10 := by simpa using h.symm
      have hshape : dateShape ds = true := by rw [hds]; exact hcond
      have hlen : ds.length = 10 := dateShape_length ds hshape
      have hdrop : l.drop 22 = rest.drop 10 := by
        rw [hl]
        have h22 : (22 : Nat) = reviewMarker.length + 10 := by simp [reviewMarker]
        rw [h22, ← List.drop_drop, List.drop_left]
      refine ⟨?_, hshape, hlen⟩
      rw [hdrop, hl, hds, List.append_assoc]
      congr 1
      exact (List.take_append_drop 10 rest).symm
    · rw [if_neg hcond] at h
      exact absurd h (by simp)

theorem exists_first_some {α β : Type} (f : α → Option β) :
    ∀ l : List α, l.any (fun x => (f x).isSome) = true →
      ∃ before x after v, l = before ++ x :: after ∧ (∀ y ∈ before, f y = none) ∧ f x = some v := by
  intro l
  induction l with
  | nil => simp
  | cons a t ih =>
    intro h
    cases hfa : f a with
    | some v => exact ⟨[], a, t, v, rfl, by simp, hfa⟩
    | none =>
      have ht : t.any (fun x => (f x).isSome) = true := by
        simp only [List.any_cons, hfa, Option.isSome_none, Bool.false_or] at h
        exact h
      obtain ⟨before, x, after, v, rfl, hb, hx⟩ := ih ht
      refine ⟨a :: before, x, after, v, rfl, ?_, hx⟩
      intro y hy
      rcases List.mem_cons.1 hy with rfl | hy
      · exact hfa
      · exact hb y hy

theorem findSome?_first {α β : Type} (f : α → Option β) (v : β) (before : List α) (x : α)
    (after : List α) (hb : ∀ y ∈ before, f y = none) (hx : f x = some v) :
    List.findSome? f (before ++ x :: after) = some v := by
  induction before with
  | nil => simp [List.findSome?_cons, hx]
  | cons a t ih =>
    have ha : f a = none := hb a (by simp)
    simp only [List.cons_append, List.findSome?_cons, ha]
    exact ih (fun y hy => hb y (List.mem_cons_of_mem _ hy))

theorem replaceFirstMarker_decomp (rl : Str) (before : List Str) (l : Str) (after : List Str)
    (hb : ∀ y ∈ before, matchMarker y = none) (hl : (matchMarker l).isSome = true) :
    replaceFirstMarker rl (before ++ l :: after) = before ++ (rl ++ l.drop 22) :: after := by
  induction before with
  | nil => simp [replaceFirstMarker, hl]
  | cons a t ih =>
    have ha : matchMarker a = none := hb a (by simp)
    show replaceFirstMarker rl (a :: (t ++ l :: after)) = _
    simp only [replaceFirstMarker, ha, Option.isSome_none]
    simp only [Bool.false_eq_true, if_false]
    exact congrArg (a :: ·) (ih (fun y hy => hb y (List.mem_cons_of_mem _ hy)))

/-! Arithmetic of the decimal printing used by `formatDate`. -/

theorem dChar_toNat (k : Nat) (h : k < 10) : (dChar k).toNat = 48 + k := by
  interval_cases k <;> decide

theorem dChar_isDigit (k : Nat) (h : k < 10) : (dChar k).isDigit = true := by
  interval_cases k <;> decide

theorem isDigit_ne_nl (c : Char) (h : c.isDigit = true) : c ≠ '\n' := by
  intro hc
  rw [hc] at h
  exact absurd h (by decide)

theorem natCharsAux_foldl : ∀ fuel n acc, n ≤ fuel →
    List.foldl (fun a c => a * 10 + (c.toNat - 48)) acc (natCharsAux fuel n)
      = acc * 10 ^ (natCharsAux fuel n).length + n := by
  intro fuel
  induction fuel with
  | zero =>
    intro n acc h
    have : n = 0 := by omega
    simp [this, natCharsAux]
  | succ fuel ih =>
    intro n acc h
    by_cases hn : n = 0
    · simp [hn, natCharsAux]
    · have hstep : natCharsAux (fuel + 1) n = natCharsAux fuel (n / 10) ++ [dChar (n % 10)] := by
        simp [natCharsAux, hn]
      have hrec : n / 10 ≤ fuel := by omega
      rw [hstep, List.foldl_append, ih (n / 10) acc hrec]
      have hmod : (dChar (n % 10)).toNat - 48 = n % 10 := by
        rw [dChar_toNat (n % 10) (by omega)]
        omega
      simp only [List.foldl_cons, List.foldl_nil, List.length_append, List.length_cons,
        List.length_nil, hmod]
      have hpow : 10 ^ ((natCharsAux fuel (n / 10)).length + (0 + 1))
          = 10 ^ (natCharsAux fuel (n / 10)).length * 10 := by
        rw [pow_succ]
      rw [hpow]
      have hexp : (acc * 10 ^ (natCharsAux fuel (n / 10)).length + n / 10) * 10 + n % 10
          = acc * (10 ^ (natCharsAux fuel (n / 10)).length * 10) + (n / 10 * 10 + n % 10) := by
        ring
      rw [hexp, Nat.div_add_mod']

theorem natCharsAux_len_le : ∀ fuel n k, n ≤ fuel → n < 10 ^ k →
    (natCharsAux fuel n).length ≤ k := by
  intro fuel
  induction fuel with
  | zero =>
    intro n k h hk
    have : n = 0 := by omega
    simp [this, natCharsAux]
  | succ fuel ih =>
    intro n k h hk
    by_cases hn : n = 0
    · simp [hn, natCharsAux]
    · have hstep : natCharsAux (fuel + 1) n = natCharsAux fuel (n / 10) ++ [dChar (n % 10)] := by
        simp [natCharsAux, hn]
      cases k with
      | zero =>
        simp only [pow_zero] at hk
        omega
      | succ k =>
        rw [hstep, List.length_append, List.length_cons, List.length_nil]
        have hdiv : n / 10 < 10 ^ k := by
          rw [Nat.div_lt_iff_lt_mul (by norm_num)]
          calc n < 10 ^ (k + 1) := hk
            _ = 10 ^ k * 10 := by rw [pow_succ]
        have := ih (n / 10) k (by omega) hdiv
        omega

theorem natCharsAux_len_ge : ∀ fuel n k, n ≤ fuel → 10 ^ k ≤ n →
    k + 1 ≤ (natCharsAux fuel n).length := by
  intro fuel
  induction fuel with
  | zero =>
    intro n k h hk
    have h1 : 1 ≤ 10 ^ k := Nat.one_le_pow k 10 (by norm_num)
    omega
  | succ fuel ih =>
    intro n k h hk
    have h1 : 1 ≤ 10 ^ k := Nat.one_le_pow k 10 (by norm_num)
    have hn : n ≠ 0 := by omega
    have hstep : natCharsAux (fuel + 1) n = natCharsAux fuel (n / 10) ++ [dChar (n % 10)] := by
      simp [natCharsAux, hn]
    rw [hstep, List.length_append, List.length_cons, List.length_nil]
    cases k with
    | zero => omega
    | succ k =>
      have hdiv : 10 ^ k ≤ n / 10 := by
        rw [Nat.le_div_iff_mul_le (by norm_num)]
        calc 10 ^ k * 10 = 10 ^ (k + 1) := by rw [pow_succ]
          _ ≤ n := hk
      have := ih (n / 10) k (by omega) hdiv
      omega

theorem natCharsAux_digits : ∀ fuel n c, c ∈ natCharsAux fuel n → c.isDigit = true := by
  intro fuel
  induction fuel with
  | zero =>
    intro n c hc
    simp [natCharsAux] at hc
  | succ fuel ih =>
    intro n c hc
    by_cases hn : n = 0
    · simp [hn, natCharsAux] at hc
    · have hstep : natCharsAux (fuel + 1) n = natCharsAux fuel (n / 10) ++ [dChar (n % 10)] := by
        simp [natCharsAux, hn]
      rw [hstep, List.mem_append] at hc
      rcases hc with hc | hc
      · exact ih (n / 10) c hc
      · have : c = dChar (n % 10) := by simpa using hc
        rw [this]
        exact dChar_isDigit (n % 10) (by omega)

theorem charsToNat_natChars (n : Nat) : charsToNat (natChars n) = n := by
  by_cases hn : n = 0
  · simp [hn, natChars, charsToNat]
  · unfold natChars charsToNat
    rw [if_neg hn, natCharsAux_foldl n n 0 (le_refl n)]
    simp

theorem natChars_digits (n : Nat) (c : Char) (hc : c ∈ natChars n) : c.isDigit = true := by
  unfold natChars at hc
  by_cases hn : n = 0
  · rw [if_pos hn] at hc
    have : c = '0' := by simpa using hc
    rw [this]; decide
  · rw [if_neg hn] at hc
    exact natCharsAux_digits n n c hc

theorem exists_pair_of_length_two {l : List Char} (h : l.length = 2) :
    ∃ a b, l = [a, b] := by
  match l, h with
  | [a, b], _ => exact ⟨a, b, rfl⟩

theorem exists_four_of_length_four {l : List Char} (h : l.length = 4) :
    ∃ a b c d, l = [a, b, c, d] := by
  match l, h with
  | [a, b, c, d], _ => exact ⟨a, b, c, d, rfl⟩

theorem natChars_len4 (n : Nat) (h1 : 1000 ≤ n) (h2 : n ≤ 9999) :
    (natChars n).length = 4 := by
  have hn : n ≠ 0 := by omega
  unfold natChars
  rw [if_neg hn]
  have hle : (natCharsAux n n).length ≤ 4 :=
    natCharsAux_len_le n n 4 (le_refl n) (by norm_num; omega)
  have hge : 3 + 1 ≤ (natCharsAux n n).length :=
    natCharsAux_len_ge n n 3 (le_refl n) (by norm_num; omega)
  omega

theorem pad2_spec (n : Nat) (h2 : n ≤ 99) :
    ∃ a b, pad2 n = [a, b] ∧ a.isDigit = true ∧ b.isDigit = true ∧ charsToNat [a, b] = n := by
  by_cases hsmall : n < 10
  · have hlen : (natChars n).length = 1 := by
      by_cases hn : n = 0
      · simp [hn, natChars]
      · unfold natChars
        rw [if_neg hn]
        have hle : (natCharsAux n n).length ≤ 1 :=
          natCharsAux_len_le n n 1 (le_refl n) (by simpa using hsmall)
        have hge : 0 + 1 ≤ (natCharsAux n n).length :=
          natCharsAux_len_ge n n 0 (le_refl n) (by simpa using Nat.one_le_iff_ne_zero.2 hn)
        omega
    obtain ⟨c, hc⟩ := List.length_eq_one.1 hlen
    refine ⟨'0', c, ?_, by decide, ?_, ?_⟩
    · unfold pad2
      rw [hc]
      simp
    · exact natChars_digits n c (by rw [hc]; simp)
    · have hv := charsToNat_natChars n
      rw [hc] at hv
      unfold charsToNat at hv ⊢
      simpa using hv
  · have hlen : (natChars n).length = 2 := by
      have hn : n ≠ 0 := by omega
      unfold natChars
      rw [if_neg hn]
      have hle : (natCharsAux n n).length ≤ 2 :=
        natCharsAux_len_le n n 2 (le_refl n) (by norm_num; omega)
      have hge : 1 + 1 ≤ (natCharsAux n n).length :=
        natCharsAux_len_ge n n 1 (le_refl n) (by simpa using hsmall)
      omega
    obtain ⟨a, b, hab⟩ := exists_pair_of_length_two hlen
    refine ⟨a, b, ?_, ?_, ?_, ?_⟩
    · unfold pad2
      rw [hab]
      simp
    · exact natChars_digits n a (by rw [hab]; simp)
    · exact natChars_digits n b (by rw [hab]; simp)
    · have hv := charsToNat_natChars n
      rw [hab] at hv
      exact hv

/-! The formatted date of a valid calendar date with a four-digit year
has the marker shape, parses back to itself, and contains no newline. -/

theorem daysInMonth_le (y m : Nat) : daysInMonth y m ≤ 31 := by
  unfold daysInMonth
  split
  · split <;> omega
  · split <;> omega

theorem validTriple_bounds (y m d : Nat) (h : validTriple y m d = true) :
    1 ≤ m ∧ m ≤ 12 ∧ 1 ≤ d ∧ d ≤ 31 := by
  unfold validTriple at h
  rw [decide_eq_true_eq] at h
  have := daysInMonth_le y m
  omega

theorem formatDate_spec (d : CDate) (hv : validTriple d.year d.month d.day = true)
    (hy1 : 1000 ≤ d.year) (hy2 : d.year ≤ 9999) :
    dateShape (formatDate d) = true ∧ parseValidDate (formatDate d) = some d ∧
    '\n' ∉ formatDate d := by
  obtain ⟨hm1, hm2, hd1, hd2⟩ := validTriple_bounds d.year d.month d.day hv
  obtain ⟨a, b, c, e, hy⟩ := exists_four_of_length_four (natChars_len4 d.year hy1 hy2)
  obtain ⟨f, g, hmn, hfd, hgd, hmval⟩ := pad2_spec d.month (by omega)
  obtain ⟨h, i, hdn, hhd, hid, hdval⟩ := pad2_spec d.day (by omega)
  have had : a.isDigit = true := natChars_digits d.year a (by rw [hy]; simp)
  have hbd : b.isDigit = true := natChars_digits d.year b (by rw [hy]; simp)
  have hcd : c.isDigit = true := natChars_digits d.year c (by rw [hy]; simp)
  have hed : e.isDigit = true := natChars_digits d.year e (by rw [hy]; simp)
  have hyval : charsToNat [a, b, c, e] = d.year := by
    have := charsToNat_natChars d.year
    rw [hy] at this
    exact this
  have hfd10 : formatDate d = [a, b, c, e, '-', f, g, '-', h, i] := by
    unfold formatDate
    rw [hy, hmn, hdn]
    rfl
  refine ⟨?_, ?_, ?_⟩
  · rw [hfd10]
    exact (dateShape_iff _).2 ⟨a, b, c, e, f, g, h, i, rfl, had, hbd, hcd, hed, hfd, hgd, hhd, hid⟩
  · rw [hfd10]
    unfold parseValidDate
    simp only [hyval, hmval, hdval, hv, if_pos]
  · rw [hfd10]
    intro hmem
    simp only [List.mem_cons, List.not_mem_nil, or_false] at hmem
    rcases hmem with hq | hq | hq | hq | hq | hq | hq | hq | hq | hq
    all_goals first
      | (exact isDigit_ne_nl _ (by assumption) hq.symm)
      | (exact absurd hq.symm (by decide))

theorem reviewMarker_no_nl : '\n' ∉ reviewMarker := by decide

/-- Round-trip of the codec: writing a valid date whose year has four
digits into any content and reading it back yields exactly that date. -/
theorem getReviewDate_updateReviewDate (content : Str) (d : CDate)
    (hv : validTriple d.year d.month d.day = true)
    (hy1 : 1000 ≤ d.year) (hy2 : d.year ≤ 9999) :
    getReviewDate (updateReviewDate content d) = some d := by
  obtain ⟨hshape, hparse, hnl⟩ := formatDate_spec d hv hy1 hy2
  have hrlnl : '\n' ∉ reviewMarker ++ formatDate d := by
    intro hmem
    rcases List.mem_append.1 hmem with hq | hq
    · exact reviewMarker_no_nl hq
    · exact hnl hq
  simp only [updateReviewDate]
  by_cases hany : (splitOnChar '\n' content).any (fun l => (matchMarker l).isSome) = true
  · rw [if_pos hany]
    obtain ⟨before, x, after, v, hsplit, hb, hx⟩ := exists_first_some matchMarker _ hany
    rw [hsplit, replaceFirstMarker_decomp _ _ _ _ hb (by rw [hx]; rfl)]
    have hxnl : '\n' ∉ x := by
      apply splitOnChar_no_sep '\n' content x
      rw [hsplit]
      simp
    have hnofnl : ∀ l ∈ before ++ ((reviewMarker ++ formatDate d) ++ x.drop 22) :: after,
        '\n' ∉ l := by
      intro l hl
      rcases List.mem_append.1 hl with hq | hq
      · apply splitOnChar_no_sep '\n' content l
        rw [hsplit]
        exact List.mem_append_left _ hq
      · rcases List.mem_cons.1 hq with rfl | hq
        · intro hmem
          rcases List.mem_append.1 hmem with hq2 | hq2
          · exact hrlnl hq2
          · exact hxnl (List.drop_subset 22 x hq2)
        · apply splitOnChar_no_sep '\n' content l
          rw [hsplit]
          exact List.mem_append_right _ (List.mem_cons_of_mem _ hq)
    unfold getReviewDate
    rw [splitOnChar_joinChar '\n' _ (by simp) hnofnl]
    have hmatch : matchMarker ((reviewMarker ++ formatDate d) ++ x.drop 22)
        = some (formatDate d) := by
      rw [List.append_assoc]
      exact matchMarker_of_shape (formatDate d) hshape (x.drop 22)
    rw [findSome?_first matchMarker (formatDate d) before _ after hb hmatch]
    exact hparse
  · rw [if_neg hany]
    unfold getReviewDate
    rw [splitOnChar_append '\n' (reviewMarker ++ formatDate d) ('\n' :: content) hrlnl]
    have hmatch : matchMarker (reviewMarker ++ formatDate d) = some (formatDate d) := by
      have : reviewMarker ++ formatDate d = reviewMarker ++ (formatDate d ++ []) := by simp
      rw [this]
      exact matchMarker_of_shape (formatDate d) hshape []
    rw [List.findSome?_cons, hmatch]
    exact hparse

/-- Frame property of the codec write: with no recognized marker the
result is exactly the new marker line, one blank line, then the original
content; with a recognized marker, only the 22 matched characters of the
first matching line change, every other line and the rest of that line
being preserved verbatim and in order. -/
theorem updateReviewDate_frame (content : Str) (d : CDate) :
    ((splitOnChar '\n' content).any (fun l => (matchMarker l).isSome) = false →
      updateReviewDate content d = (reviewMarker ++ formatDate d) ++ '\n' :: '\n' :: content) ∧
    (∀ before l after ds, splitOnChar '\n' content = before ++ l :: after →
      (∀ y ∈ before, matchMarker y = none) → matchMarker l = some ds →
      l = reviewMarker ++ ds ++ l.drop 22 ∧
      content = joinChar '\n' (before ++ l :: after) ∧
      updateReviewDate content d =
        joinChar '\n' (before ++ ((reviewMarker ++ formatDate d) ++ l.drop 22) :: after)) := by
  constructor
  · intro hany
    simp only [updateReviewDate]
    rw [if_neg (by simp [hany])]
  · intro before l after ds hsplit hb hm
    refine ⟨(matchMarker_some l ds hm).1, ?_, ?_⟩
    · rw [← hsplit, joinChar_splitOnChar]
    · simp only [updateReviewDate]
      have hany : (splitOnChar '\n' content).any (fun x => (matchMarker x).isSome) = true := by
        rw [hsplit]
        exact List.any_eq_true.2 ⟨l, by simp, by rw [hm]; rfl⟩
      rw [if_pos hany, hsplit, replaceFirstMarker_decomp _ _ _ _ hb (by rw [hm]; rfl)]

/-! The scan-loop invariant: at most one document is ever written, a run
that ends in the empty-pool error has already written exactly one
document and persisted nothing, and a successful run that wrote a
document emitted exactly the three outputs and persisted exactly the
found index. -/

theorem scanLoop_inv (env : Env) : ∀ (k : Nat) (li : Int),
    ((scanLoop env k li).writes.length ≤ 1) ∧
    ((scanLoop env k li).err = RunError.emptyPool →
      (env.teamMembers = [] ∨ selectRandomAssignee env.teamMembers env.pick = none) ∧
      ∃ (idx : Int) (n : String) (c : Str), 0 ≤ idx ∧ env.files[idx.toNat]? = some (n, c) ∧
        (scanLoop env k li).writes = [(n, updateReviewDate c env.today)] ∧
        (scanLoop env k li).saved = [] ∧ (scanLoop env k li).outputs = []) ∧
    (∀ n w, (scanLoop env k li).writes = [(n, w)] → (scanLoop env k li).err = RunError.ok →
      ∃ (idx : Int) (c : Str) (a : Str), 0 ≤ idx ∧ env.files[idx.toNat]? = some (n, c) ∧
        w = updateReviewDate c env.today ∧
        (scanLoop env k li).outputs =
          [("needs_review", "true"), ("file_path", "docs/" ++ n), ("assignee", String.mk a)] ∧
        (scanLoop env k li).saved = [idx]) := by
  intro k
  induction k with
  | zero =>
    intro li
    refine ⟨by simp [scanLoop], by simp [scanLoop], by simp [scanLoop]⟩
  | succ k ih =>
    intro li
    cases hsel : selectNextFile (env.files.map Prod.fst) li with
    | none =>
      have hres : scanLoop env (k + 1) li =
          { outputs := [("needs_review", "false")], writes := [], saved := [],
            err := RunError.ok } := by
        simp [scanLoop, hsel]
      rw [hres]
      exact ⟨by simp, by simp, by simp⟩
    | some pair =>
      obtain ⟨fo, index⟩ := pair
      cases hread : (if (0 : Int) ≤ index then env.files[index.toNat]? else none) with
      | none =>
        have hres : scanLoop env (k + 1) li =
            { outputs := [], writes := [], saved := [], err := RunError.badRead } := by
          simp only [scanLoop, hsel]
          rw [hread]
        rw [hres]
        exact ⟨by simp, by simp, by simp⟩
      | some pc =>
        obtain ⟨name, content⟩ := pc
        have hidx : 0 ≤ index ∧ env.files[index.toNat]? = some (name, content) := by
          by_cases h0 : (0 : Int) ≤ index
          · rw [if_pos h0] at hread
            exact ⟨h0, hread⟩
          · rw [if_neg h0] at hread
            exact absurd hread (by simp)
        by_cases hnr : needsReview (getReviewDate content) env.nowMs = true
        · by_cases hpr : env.hasPR ("docs/" ++ name) = true
          · have hres : scanLoop env (k + 1) li = scanLoop env k index := by
              simp only [scanLoop, hsel]
              rw [hread]
              simp [hnr, hpr]
            rw [hres]
            exact ih index
          · by_cases htm : env.teamMembers = []
            · have hres : scanLoop env (k + 1) li =
                  { outputs := [], writes := [(name, updateReviewDate content env.today)],
                    saved := [], err := RunError.emptyPool } := by
                simp only [scanLoop, hsel]
                rw [hread]
                simp [hnr, hpr, htm]
              rw [hres]
              refine ⟨by simp, ?_, by simp⟩
              intro _
              exact ⟨Or.inl htm, index, name, content, hidx.1, hidx.2, rfl, rfl, rfl⟩
            · cases hsra : selectRandomAssignee env.teamMembers env.pick with
              | none =>
                have hres : scanLoop env (k + 1) li =
                    { outputs := [], writes := [(name, updateReviewDate content env.today)],
                      saved := [], err := RunError.emptyPool } := by
                  simp only [scanLoop, hsel]
                  rw [hread]
                  simp [hnr, hpr, htm, hsra]
                rw [hres]
                refine ⟨by simp, ?_, by simp⟩
                intro _
                refine ⟨Or.inr ?_, index, name, content, hidx.1, hidx.2, rfl, rfl, rfl⟩
                first
                  | exact hsra
                  | rfl
              | some a =>
                have hres : scanLoop env (k + 1) li =
                    { outputs := [("needs_review", "true"), ("file_path", "docs/" ++ name),
                                  ("assignee", String.mk a)],
                      writes := [(name, updateReviewDate content env.today)],
                      saved := [index], err := RunError.ok } := by
                  simp only [scanLoop, hsel]
                  rw [hread]
                  simp [hnr, hpr, htm, hsra]
                rw [hres]
                refine ⟨by simp, by simp, ?_⟩
                intro n w hw _
                have hpair : name = n ∧ updateReviewDate content env.today = w := by
                  simpa using hw
                obtain ⟨h1, h2⟩ := hpair
                subst h1
                exact ⟨index, content, a, hidx.1, hidx.2, h2.symm, rfl, rfl⟩
        · have hres : scanLoop env (k + 1) li = scanLoop env k index := by
            simp only [scanLoop, hsel]
            rw [hread]
            simp [hnr]
          rw [hres]
          exact ih index

/-! Remaining supporting lemmas. -/

theorem findDelim_none (s : Str) (h : '\n' ∉ s) : findDelim s = none := by
  induction s with
  | nil => rfl
  | cons c rest ih =>
    have hc : c ≠ '\n' := fun he => h (by simp [he])
    have hrest : '\n' ∉ rest := fun hm => h (List.mem_cons_of_mem _ hm)
    have hpre : ¬ (("\n---".data).isPrefixOf (c :: rest) = true) := by
      intro hq
      have hq2 : ('\n' :: "---".data).isPrefixOf (c :: rest) = true := hq
      simp only [List.isPrefixOf, Bool.and_eq_true, beq_iff_eq] at hq2
      exact hc hq2.1.symm
    simp only [findDelim]
    rw [if_neg hpre, ih hrest]

theorem parseValidDate_some (ds : Str) (d : CDate) (h : parseValidDate ds = some d) :
    validTriple d.year d.month d.day = true := by
  unfold parseValidDate at h
  split at h
  · split at h
    · next hv =>
      injection h with h2
      subst h2
      exact hv
    · exact absurd h (by simp)
  · exact absurd h (by simp)

/-- C1: the review-date extraction of the auditor only recognizes the
legacy `reviewed at` marker line.  A document whose metadata is a
front-matter block with a valid `reviewed_at` date (the form the
companion parser and the repository's own tests recognize) reads back as
`null`, while the legacy marker form reads back as the date. -/
theorem frontmatter_reviewed_at_not_recognized :
    jsGet (parseFrontMatter ("---\nreviewed_at: 2025-10-15\n---\n\n# Title".data)).frontMatter
      "reviewed_at" = some "2025-10-15" ∧
    validTriple 2025 10 15 = true ∧
    getReviewDate ("---\nreviewed_at: 2025-10-15\n---\n\n# Title".data) = none ∧
    getReviewDate ("reviewed at 2025-10-15\n\n# Title".data) = some ⟨2025, 10, 15⟩ := by
  decide

/-- C2 counterexample: for the valid calendar date 0999-05-05 the
written marker carries a three-digit year, which the reading regular
expression cannot match, so the round-trip yields `null` instead of the
date. -/
theorem roundtrip_fails_three_digit_year :
    validTriple 999 5 5 = true ∧
    updateReviewDate [] ⟨999, 5, 5⟩ = "reviewed at 999-05-05\n\n".data ∧
    getReviewDate (updateReviewDate [] ⟨999, 5, 5⟩) = none := by
  decide

/-- C2 witness: the round-trip at concrete contents without and with
existing metadata. -/
theorem getReviewDate_updateReviewDate_witness :
    getReviewDate (updateReviewDate ("# Title\n\nBody".data) ⟨2025, 10, 11⟩)
      = some ⟨2025, 10, 11⟩ ∧
    getReviewDate (updateReviewDate ("x\nreviewed at 2020-01-01\ny".data) ⟨2025, 1, 2⟩)
      = some ⟨2025, 1, 2⟩ :=
  ⟨getReviewDate_updateReviewDate ("# Title\n\nBody".data) ⟨2025, 10, 11⟩
      (by decide) (by decide) (by decide),
   getReviewDate_updateReviewDate ("x\nreviewed at 2020-01-01\ny".data) ⟨2025, 1, 2⟩
      (by decide) (by decide) (by decide)⟩

/-- C3: the staleness decision.  A missing review date always needs
review; a present one needs review exactly when strictly more than 30
days of milliseconds have elapsed, with both boundary values checked. -/
theorem needsReview_thirty_day_window (nowMs : Int) (d : CDate) :
    needsReview none nowMs = true ∧
    (needsReview (some d) nowMs = true ↔ ONE_MONTH_MS < nowMs - dateToUTCms d) ∧
    needsReview (some d) (dateToUTCms d + ONE_MONTH_MS) = false ∧
    needsReview (some d) (dateToUTCms d + ONE_MONTH_MS + 1) = true := by
  refine ⟨rfl, by simp [needsReview], ?_, ?_⟩
  · simp only [needsReview, decide_eq_false_iff_not]
    omega
  · simp only [needsReview, decide_eq_true_eq]
    omega

/-- C4: round-robin selection returns `null` exactly for the empty list,
and for a nonempty list with `lastIndex` in range it returns the file at
index `(lastIndex + 1) mod length` together with that index. -/
theorem selectNextFile_round_robin (files : List String) (li : Int) :
    (selectNextFile files li = none ↔ files = []) ∧
    (0 < files.length → -1 ≤ li → li < (files.length : Int) →
      ∃ h : (li + 1).toNat % files.length < files.length,
        selectNextFile files li =
          some (some (files.get ⟨(li + 1).toNat % files.length, h⟩),
            (((li + 1).toNat % files.length : Nat) : Int))) := by
  constructor
  · simp only [selectNextFile]
    by_cases hlen : files.length = 0
    · rw [if_pos hlen]
      simp [List.length_eq_zero.1 hlen]
    · rw [if_neg hlen]
      exact iff_of_false (by simp) (fun he => hlen (by rw [he]; rfl))
  · intro hpos h1 h2
    simp only [selectNextFile]
    rw [if_neg (by omega)]
    obtain ⟨m, hm⟩ : ∃ m : Nat, li + 1 = (m : Int) := ⟨(li + 1).toNat, by omega⟩
    have htmod : Int.tmod (li + 1) (files.length : Int) = ((m % files.length : Nat) : Int) := by
      rw [hm]
      rfl
    have hmlt : m % files.length < files.length := Nat.mod_lt _ hpos
    have htoNat : (li + 1).toNat = m := by omega
    have hidx : (li + 1).toNat % files.length < files.length := by rw [htoNat]; exact hmlt
    refine ⟨hidx, ?_⟩
    rw [htmod]
    have hge : (0 : Int) ≤ ((m % files.length : Nat) : Int) := Int.ofNat_nonneg _
    rw [if_pos hge]
    have htn : ((m % files.length : Nat) : Int).toNat = m % files.length := Int.toNat_ofNat _
    rw [htn]
    have hget : files.get? (m % files.length) = some (files.get ⟨m % files.length, hmlt⟩) :=
      List.get?_eq_get hmlt
    rw [hget]
    simp [htoNat]

/-- C4 witness: three files with the cursor on the last index wrap
around to the first file. -/
theorem selectNextFile_round_robin_witness :
    ∃ h : ((2 : Int) + 1).toNat % (["a.md", "b.md", "c.md"] : List String).length
        < (["a.md", "b.md", "c.md"] : List String).length,
      selectNextFile ["a.md", "b.md", "c.md"] 2 =
        some (some ((["a.md", "b.md", "c.md"] : List String).get
            ⟨((2 : Int) + 1).toNat % (["a.md", "b.md", "c.md"] : List String).length, h⟩),
          ((((2 : Int) + 1).toNat % (["a.md", "b.md", "c.md"] : List String).length : Nat) : Int)) :=
  (selectNextFile_round_robin ["a.md", "b.md", "c.md"] 2).2 (by decide) (by decide) (by decide)

/-- C5: at most one document is written per invocation, and a run that
ends normally having written a document has emitted exactly the
needs-review record for that document, and persisted the cursor exactly
once, at the found index. -/
theorem mainRun_at_most_one_proposal (env : Env) (init : Int) :
    ((mainRun env init).writes.length ≤ 1) ∧
    (∀ n w, (mainRun env init).writes = [(n, w)] → (mainRun env init).err = RunError.ok →
      ∃ (idx : Int) (c : Str) (a : Str), 0 ≤ idx ∧ env.files[idx.toNat]? = some (n, c) ∧
        w = updateReviewDate c env.today ∧
        (mainRun env init).outputs =
          [("needs_review", "true"), ("file_path", "docs/" ++ n), ("assignee", String.mk a)] ∧
        (mainRun env init).saved = [idx]) := by
  unfold mainRun
  by_cases hemp : env.files.isEmpty = true
  · rw [if_pos hemp]
    exact ⟨by simp, by simp⟩
  · rw [if_neg hemp]
    exact ⟨(scanLoop_inv env env.files.length init).1, (scanLoop_inv env env.files.length init).2.2⟩

/-- C5 witness: a one-document environment whose document is stale and
whose pool is configured. -/
theorem mainRun_at_most_one_proposal_witness :
    (mainRun demoEnv (-1)).writes.length ≤ 1 ∧
    (∃ (idx : Int) (c : Str) (a : Str), 0 ≤ idx ∧ demoEnv.files[idx.toNat]? = some ("a.md", c) ∧
      updateReviewDate [] ⟨2025, 10, 11⟩ = updateReviewDate c demoEnv.today ∧
      (mainRun demoEnv (-1)).outputs =
        [("needs_review", "true"), ("file_path", "docs/" ++ "a.md"), ("assignee", String.mk a)] ∧
      (mainRun demoEnv (-1)).saved = [idx]) :=
  ⟨(mainRun_at_most_one_proposal demoEnv (-1)).1,
   (mainRun_at_most_one_proposal demoEnv (-1)).2 "a.md" (updateReviewDate [] ⟨2025, 10, 11⟩)
     (by decide) (by decide)⟩

/-- C6 counterexample: a front-matter block whose `reviewed_at` value
trims to the empty string is classified `MissingReviewedAt`, not
`StaleOrMismatchedDate`, even though its reviewed_at string (the empty
string) differs from today. -/
theorem empty_reviewed_at_counted_missing :
    jsGet (parseFrontMatter ("---\nreviewed_at:   \n---\n\nbody".data)).frontMatter "reviewed_at"
      = some "" ∧
    ("" : String) ≠ "2025-06-01" ∧
    checkAll ["docs/x.md"]
      (fun p => if p = "docs/x.md" then some ("---\nreviewed_at:   \n---\n\nbody".data) else none)
      "2025-06-01" = [("docs/x.md", Problem.MissingReviewedAt)] ∧
    Problem.MissingReviewedAt ≠ Problem.StaleOrMismatchedDate := by
  decide

/-- C6 (amended): the verifier characterization.  A recorded problem is
exactly a listed, existing file with a problem classification; no front
matter is `MissingFrontMatter`; a missing or empty-valued `reviewed_at`
is `MissingReviewedAt`; a nonempty value differing from today by literal
string comparison is `StaleOrMismatchedDate`; a nonempty value equal to
today is no problem; and the exit code is nonzero exactly when some
problem was recorded. -/
theorem checkAll_classification (paths : List String) (fsys : String → Option Str)
    (today : String) :
    (∀ p pr, (p, pr) ∈ checkAll paths fsys today ↔
      p ∈ paths ∧ ∃ c, fsys p = some c ∧ classifyFile c today = some pr) ∧
    (∀ c, (parseFrontMatter c).hasFrontMatter = false →
      classifyFile c today = some Problem.MissingFrontMatter) ∧
    (∀ c, (parseFrontMatter c).hasFrontMatter = true →
      (jsGet (parseFrontMatter c).frontMatter "reviewed_at").getD "" = "" →
      classifyFile c today = some Problem.MissingReviewedAt) ∧
    (∀ c v, (parseFrontMatter c).hasFrontMatter = true →
      jsGet (parseFrontMatter c).frontMatter "reviewed_at" = some v → v ≠ "" → v ≠ today →
      classifyFile c today = some Problem.StaleOrMismatchedDate) ∧
    (∀ c v, (parseFrontMatter c).hasFrontMatter = true →
      jsGet (parseFrontMatter c).frontMatter "reviewed_at" = some v → v ≠ "" → v = today →
      classifyFile c today = none) ∧
    (checkExitCode paths fsys today ≠ 0 ↔ checkAll paths fsys today ≠ []) := by
  refine ⟨?_, ?_, ?_, ?_, ?_, ?_⟩
  · intro p pr
    unfold checkAll
    rw [List.mem_filterMap]
    constructor
    · rintro ⟨q, hq, he⟩
      cases hf : fsys q with
      | none =>
        rw [hf] at he
        exact absurd he (by simp)
      | some c =>
        rw [hf] at he
        rw [Option.map_eq_some'] at he
        obtain ⟨pr', hpr', heq⟩ := he
        have hqp : q = p ∧ pr' = pr := by
          constructor
          · exact congrArg Prod.fst heq
          · exact congrArg Prod.snd heq
        obtain ⟨rfl, rfl⟩ := hqp
        exact ⟨hq, c, hf, hpr'⟩
    · rintro ⟨hp, c, hc, hcl⟩
      refine ⟨p, hp, ?_⟩
      rw [hc]
      simp [hcl]
  · intro c h
    unfold classifyFile
    rw [if_pos h]
  · intro c h hg
    unfold classifyFile
    rw [if_neg (by simp [h])]
    cases hj : jsGet (parseFrontMatter c).frontMatter "reviewed_at" with
    | none => rfl
    | some v =>
      rw [hj] at hg
      have hv : v = "" := by simpa using hg
      simp [hv]
  · intro c v h hj hne hnt
    unfold classifyFile
    rw [if_neg (by simp [h]), hj]
    simp [hne, hnt]
  · intro c v h hj hne ht
    subst ht
    unfold classifyFile
    rw [if_neg (by simp [h]), hj]
    simp [hne]
  · unfold checkExitCode
    by_cases he : (checkAll paths fsys today).isEmpty = true
    · rw [if_pos he]
      simp [List.isEmpty_iff.1 he]
    · rw [if_neg he]
      constructor
      · intro _
        intro hq
        exact he (by rw [hq]; rfl)
      · intro _
        omega

/-- C6 witness: the specification's verifier scenario, a document
reviewed on 2025-05-30 checked on 2025-06-01, is recorded as
`StaleOrMismatchedDate` and fails the run. -/
theorem checkAll_classification_witness :
    ("docs/x.md", Problem.StaleOrMismatchedDate) ∈ checkAll ["docs/x.md"] demoFsys "2025-06-01" ∧
    checkExitCode ["docs/x.md"] demoFsys "2025-06-01" ≠ 0 :=
  ⟨((checkAll_classification ["docs/x.md"] demoFsys "2025-06-01").1 "docs/x.md"
      Problem.StaleOrMismatchedDate).mpr
      ⟨by decide, ("---\nreviewed_at: 2025-05-30\n---\n\nbody".data), by decide, by decide⟩,
   ((checkAll_classification ["docs/x.md"] demoFsys "2025-06-01").2.2.2.2.2).mpr (by decide)⟩

/-- C7: malformed review dates read as absent.  Any date the extraction
returns is a real calendar date, and the impossible date 2025-13-45 and
the non-date string read as `null`, in the marker form as well as in the
(unrecognized) front-matter form. -/
theorem getReviewDate_malformed_null :
    (∀ content d, getReviewDate content = some d → validTriple d.year d.month d.day = true) ∧
    getReviewDate ("reviewed at 2025-13-45\n\n# T".data) = none ∧
    getReviewDate ("reviewed at not-a-date\n\n# T".data) = none ∧
    getReviewDate ("---\nreviewed_at: 2025-13-45\n---\n\n# T".data) = none ∧
    getReviewDate ("---\nreviewed_at: not-a-date\n---\n\n# T".data) = none := by
  refine ⟨?_, by decide, by decide, by decide, by decide⟩
  intro content d h
  unfold getReviewDate at h
  cases hf : (splitOnChar '\n' content).findSome? matchMarker with
  | none =>
    rw [hf] at h
    exact absurd h (by simp)
  | some ds =>
    rw [hf] at h
    exact parseValidDate_some ds d h

/-- C7 witness: the soundness half applied at a well-formed marker. -/
theorem getReviewDate_malformed_null_witness :
    validTriple 2025 10 15 = true :=
  getReviewDate_malformed_null.1 ("reviewed at 2025-10-15".data) ⟨2025, 10, 15⟩ (by decide)

/-- C8 witness: the frame decomposition at a concrete document whose
second line carries the marker with trailing text. -/
theorem updateReviewDate_frame_witness :
    ("reviewed at 2020-01-01 x".data : Str)
      = reviewMarker ++ "2020-01-01".data ++ (("reviewed at 2020-01-01 x".data).drop 22) ∧
    ("# T\nreviewed at 2020-01-01 x\nbody".data : Str)
      = joinChar '\n' (["# T".data] ++ ("reviewed at 2020-01-01 x".data) :: ["body".data]) ∧
    updateReviewDate ("# T\nreviewed at 2020-01-01 x\nbody".data) ⟨2025, 10, 11⟩
      = joinChar '\n' (["# T".data] ++
          ((reviewMarker ++ formatDate ⟨2025, 10, 11⟩)
            ++ (("reviewed at 2020-01-01 x".data).drop 22)) :: ["body".data]) :=
  (updateReviewDate_frame ("# T\nreviewed at 2020-01-01 x\nbody".data) ⟨2025, 10, 11⟩).2
    ["# T".data] ("reviewed at 2020-01-01 x".data) ["body".data] ("2020-01-01".data)
    (by decide) (by decide) (by decide)

/-- C9 counterexample: a delimited block containing one blank line (so
zero recognized key/value pairs) is reported as present with an empty
field map, not as absent. -/
theorem zero_field_block_reported_present :
    (parseFrontMatter ("---\n\n---\n\n# Title".data)).hasFrontMatter = true ∧
    (parseFrontMatter ("---\n\n---\n\n# Title".data)).frontMatter = [] := by
  decide

/-- C9 (amended): only a block whose closing delimiter immediately
follows the opening delimiter line is treated as no metadata block; this
covers every document whose remainder after `---` newline `---` contains
no further newline, and in particular the repository's own test
document. -/
theorem empty_block_reported_absent (t : Str) (h : '\n' ∉ t) :
    parseFrontMatter ("---\n---".data ++ t)
      = { frontMatter := [], hasFrontMatter := false } ∧
    parseFrontMatter ("---\n---\n\n# Title".data)
      = { frontMatter := [], hasFrontMatter := false } := by
  refine ⟨?_, by decide⟩
  have hsplit : ("---\n---".data : Str) ++ t = "---\n".data ++ ("---".data ++ t) := rfl
  rw [hsplit]
  have hnl : '\n' ∉ ("---".data : Str) ++ t := by
    intro hm
    rcases List.mem_append.1 hm with hq | hq
    · revert hq
      decide
    · exact h hq
  unfold parseFrontMatter
  simp only [stripPrefixChars_append, findDelim_none _ hnl]

/-- C9 witness: the general empty-interior case at a concrete tail. -/
theorem empty_block_reported_absent_witness :
    parseFrontMatter ("---\n---".data ++ " # Title".data)
      = { frontMatter := [], hasFrontMatter := false } ∧
    parseFrontMatter ("---\n---\n\n# Title".data)
      = { frontMatter := [], hasFrontMatter := false } :=
  empty_block_reported_absent (" # Title".data) (by decide)

/-- C10: whenever an invocation ends in the empty-pool error, the pool
really was unset or blank, exactly one document had already been
rewritten on disk, no cursor state was persisted, and no outputs were
emitted. -/
theorem mainRun_empty_pool_after_write (env : Env) (init : Int)
    (h : (mainRun env init).err = RunError.emptyPool) :
    (env.teamMembers = [] ∨ selectRandomAssignee env.teamMembers env.pick = none) ∧
    ∃ (idx : Int) (n : String) (c : Str), 0 ≤ idx ∧ env.files[idx.toNat]? = some (n, c) ∧
      (mainRun env init).writes = [(n, updateReviewDate c env.today)] ∧
      (mainRun env init).saved = [] ∧ (mainRun env init).outputs = [] := by
  unfold mainRun at h ⊢
  by_cases hemp : env.files.isEmpty = true
  · rw [if_pos hemp] at h
    exact absurd h (by simp)
  · rw [if_neg hemp] at h ⊢
    exact (scanLoop_inv env env.files.length init).2.1 h

/-- C10 witness: the one-document environment with an unset pool. -/
theorem mainRun_empty_pool_after_write_witness :
    ((demoEnvNoPool.teamMembers = [] ∨
      selectRandomAssignee demoEnvNoPool.teamMembers demoEnvNoPool.pick = none) ∧
    ∃ (idx : Int) (n : String) (c : Str), 0 ≤ idx ∧
      demoEnvNoPool.files[idx.toNat]? = some (n, c) ∧
      (mainRun demoEnvNoPool (-1)).writes = [(n, updateReviewDate c demoEnvNoPool.today)] ∧
      (mainRun demoEnvNoPool (-1)).saved = [] ∧ (mainRun demoEnvNoPool (-1)).outputs = []) :=
  mainRun_empty_pool_after_write demoEnvNoPool (-1) (by decide)
